import Mathlib

/-!
Verification of the go-maildir storage core (`src/maildir.go`) against its
natural-language specification.

Modelling conventions:
* Go strings are modelled as `List Char`.  Go indexes strings by byte; the
  model indexes by character, which agrees with Go on ASCII data.  Where the
  source mixes byte lengths with rune indexing (`formatBasename`'s
  `[]rune(info)[len(info)-1]`) the model tracks the UTF-8 byte length
  explicitly via `utf8Len`, so the possible out-of-range panic is represented
  faithfully (as `Option.none`).
* `sort.Sort(flagList(...))` sorts a rune slice ascending; over a linear
  order the sorted permutation of a list is unique, so it is modelled by
  `List.insertionSort (· ≤ ·)`, which computes the same list.
* Fallible operations return `Except`/`Option`; a Go `panic` is a dedicated
  error value.
-/

namespace Maildir

/-- The separator between a message key and its flags, `':'` on POSIX
(`maildir_unix.go` / the non-windows build; `';'` on Windows builds). -/
def separator : Char := ':'

/-- Errors of the package: `MailfileError{name}` and
`FlagError{info, experimental}` from `src/maildir.go`. -/
inductive MailErr where
  | mailfile (name : List Char)
  | flagErr (info : List Char) (experimental : Bool)
  deriving DecidableEq, Repr

/-- Go `strings.FieldsFunc`: substrings between runs of separator characters,
with no empty fields. -/
def fieldsFunc (l : List Char) (p : Char → Bool) : List (List Char) :=
  (l.splitOnP p).filter (fun f => !f.isEmpty)

/-- Embedding of `sort.Sort(flagList(flags))`: the ascending sorted
permutation of the flag list (duplicates retained). -/
def sortFlags (l : List Char) : List Char :=
  l.insertionSort (· ≤ ·)

/-- `parseBasename` from `src/maildir.go` (lines 80–102): split on the
separator, validate the info section, and return the key together with the
flags sorted ascending.  Note the source sorts but does not deduplicate. -/
def parseBasename (basename : List Char) : Except MailErr (List Char × List Char) :=
  match fieldsFunc basename (fun r => r == separator) with
  | key :: info :: _ =>
    if info.length < 2 || !(info[1]? == some ',') then
      .error (.flagErr info false)
    else if info[0]? == some '1' then
      .error (.flagErr info true)
    else if !(info[0]? == some '2') then
      .error (.flagErr info false)
    else
      .ok (key, sortFlags (info.drop 2))
  | _ => .error (.mailfile basename)

/-- Number of bytes of the UTF-8 encoding of a character, as counted by Go's
`len` on a string. -/
def charBytes (c : Char) : Nat :=
  if c.toNat < 0x80 then 1
  else if c.toNat < 0x800 then 2
  else if c.toNat < 0x10000 then 3
  else 4

/-- Go `len(info)`: the UTF-8 byte length of a string. -/
def utf8Len (l : List Char) : Nat :=
  (l.map charBytes).sum

/-- The flag-appending loop of `formatBasename`: for each sorted flag `f`,
Go evaluates `[]rune(info)[len(info)-1]` — the rune at index
(byte length - 1) — and appends `f` unless it equals that rune.  When the
info string contains multi-byte runes this index can exceed the rune count
and the Go code panics; the model returns `none` there. -/
def fmtLoop : List Char → List Char → Option (List Char)
  | info, [] => some info
  | info, f :: fs =>
    match info[utf8Len info - 1]? with
    | none => none
    | some last => if last = f then fmtLoop info fs else fmtLoop (info ++ [f]) fs

/-- `formatBasename` from `src/maildir.go` (lines 104–113): sort the flags,
collapse adjacent duplicates onto the info section `"2,"`, and prepend the
key and separator.  `none` models the index-out-of-range panic. -/
def formatBasename (key : List Char) (flags : List Char) : Option (List Char) :=
  (fmtLoop ['2', ','] (sortFlags flags)).map
    (fun info => key ++ separator :: info)

/-- The spec's `canonical`: "sorts the flags ascending by character code and
removes duplicates". -/
def canonicalFlags (flags : List Char) : List Char :=
  (sortFlags flags).dedup

/-- Adjacent-duplicate collapse relative to a preceding character: the
functional content of `formatBasename`'s loop. -/
def collapse (last : Char) : List Char → List Char
  | [] => []
  | f :: fs => if last = f then collapse last fs else f :: collapse f fs

theorem utf8Len_eq_length {l : List Char} (h : ∀ c ∈ l, c.toNat < 128) :
    utf8Len l = l.length := by
  induction l with
  | nil => rfl
  | cons c l ih =>
    have hc : c.toNat < 128 := h c (List.mem_cons_self c l)
    have hl : ∀ x ∈ l, x.toNat < 128 := fun x hx => h x (List.mem_cons_of_mem c hx)
    have hcb : charBytes c = 1 := by
      unfold charBytes
      rw [if_pos (by omega)]
    have hstep : utf8Len (c :: l) = charBytes c + utf8Len l := by
      simp [utf8Len]
    rw [hstep, hcb, ih hl, List.length_cons]
    omega

theorem fmtLoop_eq_collapse :
    ∀ (fs info : List Char) (hne : info ≠ [])
      (_ : ∀ c ∈ info, c.toNat < 128) (_ : ∀ c ∈ fs, c.toNat < 128),
      fmtLoop info fs = some (info ++ collapse (info.getLast hne) fs) := by
  intro fs
  induction fs with
  | nil => intro info hne _ _; simp [fmtLoop, collapse]
  | cons f fs ih =>
    intro info hne hinfo hfs
    have hlen : utf8Len info = info.length := utf8Len_eq_length hinfo
    have hlt : info.length - 1 < info.length := by
      cases info with
      | nil => exact absurd rfl hne
      | cons a l => simp
    have hget : info[utf8Len info - 1]? = some (info.getLast hne) := by
      rw [hlen, List.getElem?_eq_getElem hlt, List.getLast_eq_getElem]
    rw [fmtLoop, hget]
    by_cases hlf : info.getLast hne = f
    · simp only [hlf, if_pos rfl]
      rw [ih info hne hinfo (fun c hc => hfs c (List.mem_cons_of_mem f hc))]
      simp [collapse, hlf]
    · simp only [if_neg hlf]
      have hne' : info ++ [f] ≠ [] := by simp
      have hinfo' : ∀ c ∈ info ++ [f], c.toNat < 128 := by
        intro c hc
        rcases List.mem_append.1 hc with h | h
        · exact hinfo c h
        · have hcf : c = f := by simpa using h
          rw [hcf]
          exact hfs f (List.mem_cons_self f fs)
      rw [ih (info ++ [f]) hne' hinfo' (fun c hc => hfs c (List.mem_cons_of_mem f hc))]
      have hlast : (info ++ [f]).getLast hne' = f := by
        simp [List.getLast_append]
      rw [hlast]
      simp [collapse, hlf]

theorem collapse_sorted_eq_dedup :
    ∀ (l : List Char) (a : Char), l.Sorted (· ≤ ·) → a ∉ l →
      collapse a l = l.dedup := by
  intro l
  induction l with
  | nil => intro a _ _; rfl
  | cons f rest ih =>
    intro a hs ha
    have haf : a ≠ f := fun h => ha (h ▸ List.mem_cons_self f rest)
    have har : a ∉ rest := fun h => ha (List.mem_cons_of_mem f h)
    have hs' : rest.Sorted (· ≤ ·) := hs.of_cons
    rw [collapse, if_neg haf]
    cases rest with
    | nil => simp [collapse, List.dedup]
    | cons g r₂ =>
      have hfg : f ≤ g := (List.sorted_cons.1 hs).1 g (List.mem_cons_self g r₂)
      by_cases hfeq : f = g
      · subst hfeq
        have step : collapse a (f :: r₂) = f :: collapse f r₂ := by
          rw [collapse, if_neg haf]
        have ihr := ih a hs' har
        rw [step] at ihr
        have hmem : f ∈ f :: r₂ := List.mem_cons_self f r₂
        rw [List.dedup_cons_of_mem hmem]
        have : collapse f (f :: r₂) = collapse f r₂ := by
          rw [collapse, if_pos rfl]
        rw [this]
        exact ihr
      · have hfr : f ∉ g :: r₂ := by
          intro hmem
          rcases List.mem_cons.1 hmem with h | h
          · exact hfeq h
          · have hgx : g ≤ f := by
              have := (List.sorted_cons.1 hs').1 f h
              exact this
            exact hfeq (le_antisymm hfg hgx)
        rw [List.dedup_cons_of_not_mem hfr]
        rw [ih f hs' hfr]

theorem collapse_sublist (a : Char) (l : List Char) : (collapse a l).Sublist l := by
  induction l generalizing a with
  | nil => simp [collapse]
  | cons f fs ih =>
    rw [collapse]
    by_cases h : a = f
    · rw [if_pos h]
      exact (ih a).trans (List.sublist_cons_self f fs)
    · rw [if_neg h]
      exact (ih f).cons₂ f

theorem sortFlags_sorted (l : List Char) : (sortFlags l).Sorted (· ≤ ·) :=
  List.sorted_insertionSort _ l

theorem sortFlags_perm (l : List Char) : (sortFlags l).Perm l :=
  List.perm_insertionSort _ l

theorem sortFlags_of_sorted {l : List Char} (h : l.Sorted (· ≤ ·)) :
    sortFlags l = l :=
  List.Sorted.insertionSort_eq h

theorem canonicalFlags_sorted (l : List Char) :
    (canonicalFlags l).Sorted (· ≤ ·) :=
  (sortFlags_sorted l).sublist (List.dedup_sublist _)

theorem mem_canonicalFlags {c : Char} {l : List Char} (h : c ∈ canonicalFlags l) :
    c ∈ l :=
  (sortFlags_perm l).mem_iff.1 (List.mem_dedup.1 h)

theorem fieldsFunc_key_info {key info : List Char} (hkey : key ≠ [])
    (hks : separator ∉ key) (hinfo : info ≠ []) (his : separator ∉ info) :
    fieldsFunc (key ++ separator :: info) (fun r => r == separator) =
      [key, info] := by
  have hk : ∀ x ∈ key, ¬((fun r => r == separator) x) := by
    intro x hx
    simp only [beq_iff_eq]
    intro hcon
    exact hks (hcon ▸ hx)
  have hi : ∀ x ∈ info, ¬((fun r => r == separator) x) := by
    intro x hx
    simp only [beq_iff_eq]
    intro hcon
    exact his (hcon ▸ hx)
  have hsplit : (key ++ separator :: info).splitOnP (fun r => r == separator) =
      key :: info.splitOnP (fun r => r == separator) :=
    List.splitOnP_first (fun r => r == separator) key hk separator (by simp) info
  unfold fieldsFunc
  rw [hsplit, List.splitOnP_eq_single (fun r => r == separator) info hi]
  simp [hkey, hinfo, List.isEmpty_iff]

theorem formatBasename_eq_canonical {key F : List Char}
    (hF : ∀ f ∈ F, f.toNat < 128 ∧ f ≠ ',' ∧ f ≠ separator) :
    formatBasename key F =
      some (key ++ separator :: '2' :: ',' :: canonicalFlags F) := by
  have hmemF : ∀ f ∈ sortFlags F, f ∈ F := fun f hf =>
    (sortFlags_perm F).mem_iff.1 hf
  have hfs : ∀ c ∈ sortFlags F, c.toNat < 128 := fun c hc =>
    (hF c (hmemF c hc)).1
  have hne : (['2', ','] : List Char) ≠ [] := by simp
  have hloop := fmtLoop_eq_collapse (sortFlags F) ['2', ','] hne
    (by decide) hfs
  have hlast : (['2', ','] : List Char).getLast hne = ',' := rfl
  have hnotmem : ',' ∉ sortFlags F := by
    intro hmem
    exact (hF ',' (hmemF ',' hmem)).2.1 rfl
  have hcoll : collapse ',' (sortFlags F) = canonicalFlags F :=
    collapse_sorted_eq_dedup (sortFlags F) ',' (sortFlags_sorted F) hnotmem
  rw [hlast, hcoll] at hloop
  unfold formatBasename
  rw [hloop]
  rfl

theorem parseBasename_canonical {key F : List Char} (hkey : key ≠ [])
    (hks : separator ∉ key)
    (hF : ∀ f ∈ F, f.toNat < 128 ∧ f ≠ ',' ∧ f ≠ separator) :
    parseBasename (key ++ separator :: '2' :: ',' :: canonicalFlags F) =
      .ok (key, canonicalFlags F) := by
  have hinfo : ('2' :: ',' :: canonicalFlags F : List Char) ≠ [] := by simp
  have his : separator ∉ ('2' :: ',' :: canonicalFlags F : List Char) := by
    intro hmem
    rcases List.mem_cons.1 hmem with h | h
    · exact absurd h.symm (by decide)
    · rcases List.mem_cons.1 h with h | h
      · exact absurd h.symm (by decide)
      · exact (hF separator (mem_canonicalFlags h)).2.2 rfl
  unfold parseBasename
  rw [fieldsFunc_key_info hkey hks hinfo his]
  simp only [List.length_cons, List.getElem?_cons_succ, List.getElem?_cons_zero,
    List.drop_succ_cons, List.drop_zero, beq_self_eq_true, Bool.not_true]
  rw [if_neg (by simp), if_neg (by decide),
    if_neg (by simp), sortFlags_of_sorted (canonicalFlags_sorted F)]

/-- Claim C1 (counterexample): for the empty key — which contains no
separator character — `decode(encode(k, F))` does not return `(k, canonical F)`:
`formatBasename "" []` yields the basename `":2,"`, whose decoding fails with
a `MailfileError` because `strings.FieldsFunc` drops the empty key segment. -/
theorem parse_format_fails_on_empty_key :
    formatBasename [] [] = some [separator, '2', ','] ∧
      parseBasename [separator, '2', ','] =
        .error (.mailfile [separator, '2', ',']) := by
  constructor
  · rfl
  · rfl

/-- Claim C1 (amended): the round-trip law holds for every nonempty key
containing no separator and every flag list whose flags are ASCII characters
distinct from `','` and from the separator:
`parseBasename (formatBasename k F) = ok (k, canonical F)`, where `canonical`
sorts ascending and removes duplicates.  (The empty key produces a basename
whose decoding fails; a `','` flag can be silently dropped by the encoder's
duplicate check against the `"2,"` prefix; and on non-ASCII flag lists the
encoder's byte-length/rune-index mix-up can panic.) -/
theorem parse_format_roundtrip (key F : List Char) (hkey : key ≠ [])
    (hks : separator ∉ key)
    (hF : ∀ f ∈ F, f.toNat < 128 ∧ f ≠ ',' ∧ f ≠ separator) :
    formatBasename key F =
        some (key ++ separator :: '2' :: ',' :: canonicalFlags F) ∧
      parseBasename (key ++ separator :: '2' :: ',' :: canonicalFlags F) =
        .ok (key, canonicalFlags F) := by
  exact ⟨formatBasename_eq_canonical hF, parseBasename_canonical hkey hks hF⟩

/-- Claim C1 witness: the round trip at `k = "k"`, `F = ['S', 'S', 'F']`. -/
theorem parse_format_roundtrip_witness :
    formatBasename ['k'] ['S', 'S', 'F'] =
        some (['k'] ++ separator :: '2' :: ',' ::
          canonicalFlags ['S', 'S', 'F']) ∧
      parseBasename (['k'] ++ separator :: '2' :: ',' ::
          canonicalFlags ['S', 'S', 'F']) =
        .ok (['k'], canonicalFlags ['S', 'S', 'F']) :=
  parse_format_roundtrip ['k'] ['S', 'S', 'F'] (by decide) (by decide)
    (by decide)

/-- Claim C5 (counterexample): the basename `"k:2,SS"` passes structural
validation, yet `parseBasename` returns the duplicated flag list
`['S', 'S']` — sorted but not deduplicated. -/
theorem parseBasename_keeps_duplicates :
    parseBasename ['k', separator, '2', ',', 'S', 'S'] =
        .ok (['k'], ['S', 'S']) ∧
      ¬(['S', 'S'] : List Char).Nodup := by
  constructor
  · rfl
  · decide

/-- Claim C5 (amended): for every basename that passes structural validation
(at least two separator-separated segments, info segment of length at least 2
whose second character is `','` and whose first character is `'2'`),
`parseBasename` returns the remainder of the info segment sorted ascending
with duplicates retained: the result is a sorted permutation of the on-disk
flag characters, not a deduplicated set. -/
theorem parseBasename_valid_sorts (basename key info : List Char)
    (rest : List (List Char))
    (hsplit : fieldsFunc basename (fun r => r == separator) =
      key :: info :: rest)
    (hlen : 2 ≤ info.length) (h1 : info[1]? = some ',')
    (h0 : info[0]? = some '2') :
    parseBasename basename = .ok (key, sortFlags (info.drop 2)) ∧
      (sortFlags (info.drop 2)).Sorted (· ≤ ·) ∧
      (sortFlags (info.drop 2)).Perm (info.drop 2) := by
  refine ⟨?_, sortFlags_sorted _, sortFlags_perm _⟩
  unfold parseBasename
  rw [hsplit]
  have hnlt : ¬info.length < 2 := by omega
  simp [hnlt, h1, h0]

/-- Claim C5 witness: decoding `"k:2,ba"`. -/
theorem parseBasename_valid_sorts_witness :
    parseBasename ['k', separator, '2', ',', 'b', 'a'] =
        .ok (['k'], sortFlags (['2', ',', 'b', 'a'].drop 2)) ∧
      (sortFlags (['2', ',', 'b', 'a'].drop 2)).Sorted (· ≤ ·) ∧
      (sortFlags (['2', ',', 'b', 'a'].drop 2)).Perm
        (['2', ',', 'b', 'a'].drop 2) :=
  parseBasename_valid_sorts ['k', separator, '2', ',', 'b', 'a'] ['k']
    ['2', ',', 'b', 'a'] [] (by decide) (by decide) (by decide) (by decide)

/-- A `Message` (lines 121–126): the cached filename is modelled as the pair
of its directory and basename (`filepath.Join dir basename`), plus the cached
key and flags. -/
structure Msg where
  dir : List Char
  basename : List Char
  key : List Char
  flags : List Char
  deriving DecidableEq, Repr

/-- Outcome of `Message.SetFlags`. -/
inductive SetFlagsRes where
  | ok
  | fmtPanic
  | parseErr (e : MailErr)
  | renameErr
  deriving DecidableEq, Repr

/-- `Message.SetFlags` (lines 148–162): compute the new basename from the
message's key and the requested flags, re-parse it, then rename.  `renameOk`
models whether `os.Rename` succeeds.  Returns the result together with the
final in-memory message state (which the source only updates after a
successful rename). -/
def setFlagsModel (renameOk : Bool) (m : Msg) (flags : List Char) :
    SetFlagsRes × Msg :=
  match formatBasename m.key flags with
  | none => (.fmtPanic, m)
  | some nb =>
    match parseBasename nb with
    | .error e => (.parseErr e, m)
    | .ok (_, fl) =>
      if renameOk then (.ok, { m with basename := nb, flags := fl })
      else (.renameErr, m)

theorem formatBasename_shape {key F b : List Char}
    (h : formatBasename key F = some b) :
    ∃ info, b = key ++ separator :: info := by
  unfold formatBasename at h
  rcases Option.map_eq_some'.1 h with ⟨info, _, hb⟩
  exact ⟨info, hb.symm⟩

theorem setFlagsModel_none {m : Msg} {F : List Char} (r : Bool)
    (hfmt : formatBasename m.key F = none) :
    setFlagsModel r m F = (.fmtPanic, m) := by
  unfold setFlagsModel
  rw [hfmt]

theorem setFlagsModel_some {m : Msg} {F nb : List Char} (r : Bool)
    (hfmt : formatBasename m.key F = some nb) :
    setFlagsModel r m F =
      (match parseBasename nb with
       | .error e => (.parseErr e, m)
       | .ok (_, fl) =>
         if r then (.ok, { m with basename := nb, flags := fl })
         else (.renameErr, m)) := by
  unfold setFlagsModel
  rw [hfmt]

/-- Claim C7: if the rename performed by `Message.SetFlags` fails, the call
reports the rename error (whenever the basename computation itself succeeded)
and the message's in-memory state — cached filename components and flags — is
exactly what it was before the call; on a successful rename the key is
preserved, the directory is unchanged, and the new basename is the key
followed by the separator and a new info suffix. -/
theorem setFlags_frame (m : Msg) (F : List Char) :
    (setFlagsModel false m F).2 = m ∧
      ((∃ nb p, formatBasename m.key F = some nb ∧ parseBasename nb = .ok p) →
        (setFlagsModel false m F).1 = .renameErr) ∧
      ((setFlagsModel true m F).1 = .ok →
        (setFlagsModel true m F).2.key = m.key ∧
          (setFlagsModel true m F).2.dir = m.dir ∧
          ∃ info, (setFlagsModel true m F).2.basename =
            m.key ++ separator :: info) := by
  refine ⟨?_, ?_, ?_⟩
  · cases hfmt : formatBasename m.key F with
    | none => rw [setFlagsModel_none false hfmt]
    | some nb =>
      rw [setFlagsModel_some false hfmt]
      cases hp : parseBasename nb with
      | error e => rfl
      | ok p => obtain ⟨a, fl⟩ := p; rfl
  · rintro ⟨nb, p, hfmt, hp⟩
    rw [setFlagsModel_some false hfmt, hp]
    obtain ⟨a, fl⟩ := p
    rfl
  · intro hok
    cases hfmt : formatBasename m.key F with
    | none =>
      rw [setFlagsModel_none true hfmt] at hok
      simp at hok
    | some nb =>
      rw [setFlagsModel_some true hfmt] at hok ⊢
      cases hp : parseBasename nb with
      | error e =>
        rw [hp] at hok
        simp at hok
      | ok p =>
        obtain ⟨a, fl⟩ := p
        rcases formatBasename_shape hfmt with ⟨info, hnb⟩
        exact ⟨rfl, rfl, info, by simpa using hnb⟩

/-- Claim C7 witness: a message `"k:2,"` in directory `"d"`, setting the
flag list `['S']`, with the rename failing and succeeding respectively. -/
theorem setFlags_frame_witness :
    (setFlagsModel false ⟨['d'], ['k', separator, '2', ','], ['k'], []⟩
        ['S']).2 = ⟨['d'], ['k', separator, '2', ','], ['k'], []⟩ ∧
      ((∃ nb p, formatBasename ['k'] ['S'] = some nb ∧
          parseBasename nb = .ok p) →
        (setFlagsModel false ⟨['d'], ['k', separator, '2', ','], ['k'], []⟩
          ['S']).1 = .renameErr) ∧
      ((setFlagsModel true ⟨['d'], ['k', separator, '2', ','], ['k'], []⟩
          ['S']).1 = .ok →
        (setFlagsModel true ⟨['d'], ['k', separator, '2', ','], ['k'], []⟩
            ['S']).2.key = ['k'] ∧
          (setFlagsModel true ⟨['d'], ['k', separator, '2', ','], ['k'], []⟩
            ['S']).2.dir = ['d'] ∧
          ∃ info, (setFlagsModel true
              ⟨['d'], ['k', separator, '2', ','], ['k'], []⟩ ['S']).2.basename =
            ['k'] ++ separator :: info) :=
  setFlags_frame ⟨['d'], ['k', separator, '2', ','], ['k'], []⟩ ['S']

/-- `Dir.Create` (lines 487–510), flag and name bookkeeping: the generated
key is a parameter (`newKey` is modelled separately).  `formatBasename`
sorts the caller's flag slice in place before `flagsCopy` is taken, so the
returned message carries the sorted — but not deduplicated — flag list,
while the file's basename carries the collapsed info section.  `none` models
the panic inside `formatBasename`. -/
def createModel (d key : List Char) (flags : List Char) : Option Msg :=
  match formatBasename key flags with
  | none => none
  | some bn =>
    some { dir := d ++ ['/', 'c', 'u', 'r'], basename := bn, key := key,
           flags := sortFlags flags }

/-- Claim C10 (counterexample): for the duplicate-free flag list `[',']`,
the basename created by `Dir.Create` is `"k:2,"` — the `','` flag is absorbed
by the encoder's duplicate check against the `"2,"` marker — so the basename
does not encode the deduplicated canonical flag set `[',']`. -/
theorem create_comma_flag_not_canonical :
    (createModel ['d'] ['k'] [',']).map Msg.basename =
        some ['k', separator, '2', ','] ∧
      parseBasename ['k', separator, '2', ','] = .ok (['k'], []) ∧
      canonicalFlags [','] = [','] ∧
      ([] : List Char) ≠ canonicalFlags [','] := by
  refine ⟨rfl, rfl, rfl, by decide⟩

/-- Claim C10 (amended): for every nonempty key without a separator and
every flag list `F` of ASCII flags other than `','` and the separator, the
message returned by `Dir.Create` carries flags equal to `F` sorted ascending
with duplicates retained (a sorted permutation of `F`, not deduplicated),
while the created basename decodes to the deduplicated canonical flag set;
consequently, whenever `F` contains duplicate flags, the returned message's
in-memory flags differ from the flags decoded from its own basename. -/
theorem create_flags_vs_basename (d key F : List Char) (hkey : key ≠ [])
    (hks : separator ∉ key)
    (hF : ∀ f ∈ F, f.toNat < 128 ∧ f ≠ ',' ∧ f ≠ separator) :
    ∃ m, createModel d key F = some m ∧
      m.flags = sortFlags F ∧ m.flags.Perm F ∧ m.flags.Sorted (· ≤ ·) ∧
      parseBasename m.basename = .ok (key, canonicalFlags F) ∧
      (¬F.Nodup → m.flags ≠ canonicalFlags F) := by
  refine ⟨{ dir := d ++ ['/', 'c', 'u', 'r'],
            basename := key ++ separator :: '2' :: ',' :: canonicalFlags F,
            key := key, flags := sortFlags F }, ?_, rfl,
          sortFlags_perm F, sortFlags_sorted F,
          parseBasename_canonical hkey hks hF, ?_⟩
  · unfold createModel
    rw [formatBasename_eq_canonical hF]
  · intro hdup heq
    have heq' : sortFlags F = canonicalFlags F := heq
    have hnd : (sortFlags F).Nodup := by
      rw [heq']
      exact List.nodup_dedup (sortFlags F)
    exact hdup ((sortFlags_perm F).nodup_iff.1 hnd)

/-- Claim C10 witness: creating a message with the duplicated flag list
`['S', 'S']`. -/
theorem create_flags_vs_basename_witness :
    ∃ m, createModel ['d'] ['k'] ['S', 'S'] = some m ∧
      m.flags = sortFlags ['S', 'S'] ∧ m.flags.Perm ['S', 'S'] ∧
      m.flags.Sorted (· ≤ ·) ∧
      parseBasename m.basename = .ok (['k'], canonicalFlags ['S', 'S']) ∧
      (¬(['S', 'S'] : List Char).Nodup → m.flags ≠ canonicalFlags ['S', 'S']) :=
  create_flags_vs_basename ['d'] ['k'] ['S', 'S'] (by decide) (by decide)
    (by decide)

instance {ε α : Type} [DecidableEq ε] [DecidableEq α] :
    DecidableEq (Except ε α) := fun a b =>
  match a, b with
  | .error e, .error e' =>
    if h : e = e' then .isTrue (by rw [h])
    else .isFalse (fun hc => h (Except.error.inj hc))
  | .ok x, .ok y =>
    if h : x = y then .isTrue (by rw [h])
    else .isFalse (fun hc => h (Except.ok.inj hc))
  | .error _, .ok _ => .isFalse (fun hc => Except.noConfusion hc)
  | .ok _, .error _ => .isFalse (fun hc => Except.noConfusion hc)

/-- `KeyError` (lines 28–36): a key that matches `N ≠ 1` files. -/
structure KeyErr where
  key : List Char
  n : Nat
  deriving DecidableEq, Repr

/-- The path prefix `"/cur/"` used when joining a mailbox root with a
working-area basename. -/
def curSlash : List Char := ['/', 'c', 'u', 'r', '/']

/-- `Dir.filenameGuesses` (lines 370–392): the precomputed candidate paths
for the most common flag combinations, in source order (including the
duplicated `+P` entry). -/
def filenameGuesses (d key : List Char) : List (List Char) :=
  let filename := d ++ curSlash ++ key ++ [separator, '2', ',']
  [filename,
   filename ++ ['P'], filename ++ ['R'], filename ++ ['S'],
   filename ++ ['D'], filename ++ ['F'],
   filename ++ ['F', 'P'], filename ++ ['F', 'P', 'S'],
   filename ++ ['F', 'R'], filename ++ ['F', 'R', 'S'],
   filename ++ ['F', 'S'],
   filename ++ ['P'], filename ++ ['P', 'S'],
   filename ++ ['R', 'S']]

/-- `Dir.filenameByKey` (lines 395–426): `existing` is the set of paths for
which `os.Stat` succeeds; `curNames` is the listing of the working area in
directory order (the chunked `Readdirnames` loop reads it in order, so the
chunking collapses into a single list).  The fallback scan returns the first
name whose prefix is `key + separator`; if the scan completes without a
match it returns `KeyError{key, 0}`. -/
def filenameByKey (existing curNames : List (List Char)) (d key : List Char) :
    Except KeyErr (List Char) :=
  match (filenameGuesses d key).find? (fun g => existing.contains g) with
  | some g => .ok g
  | none =>
    match curNames.find? (fun n => (key ++ [separator]).isPrefixOf n) with
    | some n => .ok (d ++ curSlash ++ n)
    | none => .error ⟨key, 0⟩

/-- Claim C2 (counterexample): with the working area corrupted so that two
files share the key `"k"` (and no guess existing), `filenameByKey` silently
returns the first match in directory order instead of reporting an
ambiguous-match error carrying the key and the match count 2. -/
theorem filenameByKey_picks_first_of_two :
    filenameByKey []
        [['k', separator, '2', ',', 'a'], ['k', separator, '2', ',', 'b']]
        [] ['k'] =
      .ok (curSlash ++ ['k', separator, '2', ',', 'a']) ∧
    (([['k', separator, '2', ',', 'a'], ['k', separator, '2', ',', 'b']].filter
        (fun n => (['k', separator] : List Char).isPrefixOf n)).length = 2) ∧
    filenameByKey []
        [['k', separator, '2', ',', 'a'], ['k', separator, '2', ',', 'b']]
        [] ['k'] ≠ .error ⟨['k'], 2⟩ := by
  refine ⟨rfl, rfl, by decide⟩

/-- Claim C2 (amended): when none of the guessed basenames exists, the
exhaustive fallback scan reports `KeyError{key, 0}` if no entry of the
working area begins with the key followed by the separator, and otherwise
returns the path of the first matching entry in directory order — with more
than one match it silently picks the first; it never counts matches and
never reports an ambiguous-match error. -/
theorem filenameByKey_scan (existing curNames : List (List Char))
    (d key : List Char)
    (hguess : ∀ g ∈ filenameGuesses d key, g ∉ existing) :
    filenameByKey existing curNames d key =
      match curNames.find? (fun n => (key ++ [separator]).isPrefixOf n) with
      | some n => .ok (d ++ curSlash ++ n)
      | none => .error ⟨key, 0⟩ := by
  unfold filenameByKey
  have hnone : (filenameGuesses d key).find?
      (fun g => existing.contains g) = none := by
    rw [List.find?_eq_none]
    intro g hg
    simpa using hguess g hg
  rw [hnone]

/-- Claim C2 witness: a listing with exactly one match for the key `"k"`,
with no guessed path existing. -/
theorem filenameByKey_scan_witness :
    filenameByKey [['z']] [['a'], ['k', separator, '2', ',', 'S']] [] ['k'] =
      match [['a'], ['k', separator, '2', ',', 'S']].find?
          (fun n => ((['k'] : List Char) ++ [separator]).isPrefixOf n) with
      | some n => .ok ([] ++ curSlash ++ n)
      | none => .error ⟨['k'], 0⟩ :=
  filenameByKey_scan [['z']] [['a'], ['k', separator, '2', ',', 'S']] [] ['k']
    (by decide)

/-- `Dir.Unseen` (lines 247–290) over a listing of the inbox area, in
directory order: hidden names are skipped; for every other name the part
before the first separator (`strings.Cut`) becomes the key, the entry is
renamed to `key + separator + "2,"` in the working area, and the new
basename is parsed to build the returned message.  A parse failure hits the
source's `panic(err) // unreachable` branch; the panic aborts the whole
enumeration and is modelled as an `error` result. -/
def unseenModel : List (List Char) →
    Except MailErr (List (List Char × List Char))
  | [] => .ok []
  | n :: rest =>
    if n.head? = some '.' then unseenModel rest
    else
      match parseBasename
          (n.takeWhile (fun r => !(r == separator)) ++ [separator, '2', ',']) with
      | .error e => .error e
      | .ok kf =>
        match unseenModel rest with
        | .error e => .error e
        | .ok msgs => .ok (kf :: msgs)

/-- Claim C4: a file in the inbox area whose name begins with the separator
character yields the empty key, so the rebuilt basename `":2,"` fails to
parse and `Dir.Unseen` hits its `panic(err)` branch — the enumeration
aborts and the valid neighbor `"a"` is never returned, while the same
listing without the malformed entry promotes `"a"` normally.  There is no
aggregated error value in `Dir.Unseen`. -/
theorem unseen_panics_on_separator_name :
    unseenModel [[separator, 'x'], ['a']] =
        .error (.mailfile [separator, '2', ',']) ∧
      unseenModel [['a']] = .ok [(['a'], [])] := by
  refine ⟨rfl, rfl⟩

/-- Go `strings.Replace(l, c, r, -1)` for a single-character pattern:
every occurrence of `c` is replaced by `r`. -/
def replaceChar (l : List Char) (c : Char) (r : List Char) : List Char :=
  l.flatMap (fun x => if x = c then r else [x])

/-- The hostname escaping in `newKey` (lines 447–448): `/` becomes `\057`,
then the separator becomes `\072`. -/
def escapeHost (host : List Char) : List Char :=
  replaceChar (replaceChar host '/' ['\\', '0', '5', '7']) separator
    ['\\', '0', '7', '2']

/-- Decimal rendering of a natural number, as `fmt`'s `%d` (the source's
timestamp, pid and counter are non-negative in any run modelled here). -/
def decimalN (n : Nat) : List Char := Nat.toDigits 10 n

/-- `%x` of one byte of a `[]byte`: two lowercase hex digits. -/
def hexByte (b : Nat) : List Char :=
  [Nat.digitChar (b / 16 % 16), Nat.digitChar (b % 16)]

/-- `%x` of a `[]byte`: each byte as two lowercase hex digits. -/
def hexBytes (bs : List Nat) : List Char := bs.flatMap hexByte

/-- The fixed starting offset of the process-local counter
(`var id int64 = 10000`, line 26). -/
def idStart : Nat := 10000

/-- `newKey` (lines 442–464): `hostRes` and `randRes` are the outcomes of
`os.Hostname()` and of reading 10 bytes from `crypto/rand`; `ctr` is the
counter value before the call.  On success the key is
`fmt.Sprintf("%d.%d%d%x.%s", unixTime, pid, ctr+1, randomBytes, escapedHost)`
and the counter advances to `ctr + 1`; on either failure the error is
returned unchanged and no key is produced. -/
def newKeyModel (nowUnix pid ctr : Nat) (hostRes : Except Unit (List Char))
    (randRes : Except Unit (List Nat)) : Except Unit (List Char × Nat) :=
  match hostRes with
  | .error e => .error e
  | .ok host =>
    match randRes with
    | .error e => .error e
    | .ok bs =>
      .ok (decimalN nowUnix ++ ['.'] ++ decimalN pid ++ decimalN (ctr + 1) ++
        hexBytes bs ++ ['.'] ++ escapeHost host, ctr + 1)

/-- Modelled from the spec: the claim's stated component order — (a) the
Unix timestamp, (b) the escaped hostname, (c) the process id, (d) the
incremented counter, (e) the hex encoding of the random bytes — concatenated
in that order, keeping the source's `'.'` delimiter after the timestamp. -/
def claimedKeyOrder (nowUnix pid ctr : Nat) (host : List Char)
    (bs : List Nat) : List Char :=
  decimalN nowUnix ++ ['.'] ++ escapeHost host ++ decimalN pid ++
    decimalN (ctr + 1) ++ hexBytes bs

/-- Claim C6 (counterexample): with timestamp 0, pid 7, counter at its fixed
offset 10000, ten zero random bytes and hostname `"zzz"`, the key produced
by `newKey` is `"0.710001" ++ 20 zero hex digits ++ ".zzz"` — the escaped
hostname is the final component, after the hex block — which differs from
the claim's stated order, where the hostname comes second and the hex block
last. -/
theorem newKey_order_counterexample :
    newKeyModel 0 7 idStart (.ok ['z', 'z', 'z'])
        (.ok (List.replicate 10 0)) =
      .ok (['0', '.', '7', '1', '0', '0', '0', '1'] ++
        List.replicate 20 '0' ++ ['.', 'z', 'z', 'z'], 10001) ∧
    ['0', '.', '7', '1', '0', '0', '0', '1'] ++ List.replicate 20 '0' ++
        ['.', 'z', 'z', 'z'] ≠
      claimedKeyOrder 0 7 idStart ['z', 'z', 'z'] (List.replicate 10 0) := by
  constructor
  · rfl
  · decide

theorem not_mem_replaceChar {x c : Char} {l r : List Char} (hxr : x ∉ r)
    (hxc : x = c ∨ x ∉ l) : x ∉ replaceChar l c r := by
  intro hmem
  rcases List.mem_flatMap.1 hmem with ⟨a, ha, hx⟩
  by_cases hac : a = c
  · rw [hac, if_pos rfl] at hx
    exact hxr hx
  · rw [if_neg hac] at hx
    rcases List.mem_singleton.1 hx with rfl
    rcases hxc with rfl | hnl
    · exact hac rfl
    · exact hnl ha

/-- Claim C6 (amended): every key produced by `newKey` is the concatenation,
in this order, of (a) the decimal Unix timestamp, a dot, (c) the decimal
process id, (d) the decimal value of the process-local counter (fixed start
10000) incremented by this call, (e) two lowercase hex digits per random
byte, a dot, and (b) the hostname with `/` and the separator escaped to
octal-style sequences (the hostname component comes last, not second); the
escaped hostname contains neither `/` nor the separator; if the hostname or
the random source fails, the error is returned and no key is generated. -/
theorem newKey_structure (ts pid ctr : Nat) (host : List Char)
    (bs : List Nat) (e : Unit) :
    newKeyModel ts pid ctr (.ok host) (.ok bs) =
      .ok (decimalN ts ++ ['.'] ++ decimalN pid ++ decimalN (ctr + 1) ++
        hexBytes bs ++ ['.'] ++ escapeHost host, ctr + 1) ∧
    newKeyModel ts pid ctr (.error e) (.ok bs) = .error e ∧
    newKeyModel ts pid ctr (.ok host) (.error e) = .error e ∧
    '/' ∉ escapeHost host ∧ separator ∉ escapeHost host := by
  refine ⟨rfl, rfl, rfl, ?_, ?_⟩
  · exact not_mem_replaceChar (by decide)
      (Or.inr (not_mem_replaceChar (by decide) (Or.inl rfl)))
  · exact not_mem_replaceChar (by decide) (Or.inl rfl)

/-- The filesystem state a concurrent reader can observe during one
delivery: the content of the staging file `tmp/key` and of the destination
`new/key`. -/
structure DeliveryState where
  tmpFile : Option (List Nat)
  newFile : Option (List Nat)
  closed : Bool
  deriving DecidableEq, Repr

/-- The operations a delivery performs after `NewDelivery`. -/
inductive DeliveryOp where
  | write (chunk : List Nat)
  | close
  deriving DecidableEq, Repr

/-- `NewDelivery` (lines 559–574): the staging file is created empty with
create-exclusive semantics; nothing exists at the destination name. -/
def deliveryInit : DeliveryState :=
  { tmpFile := some [], newFile := none, closed := false }

/-- One step of the delivery: `Delivery.Write` (lines 577–579) appends to
the staging file only; `Delivery.Close` (lines 582–593) closes the file and
then publishes it with a single atomic `os.Rename` from the staging area to
the destination — one state transition moves the whole content. -/
def deliveryStep (s : DeliveryState) : DeliveryOp → DeliveryState
  | .write c =>
    if s.closed then s else { s with tmpFile := s.tmpFile.map (· ++ c) }
  | .close => { tmpFile := none, newFile := s.tmpFile, closed := true }

/-- The states reachable while delivering `chunks`: run a prefix of the
trace `write c₁, …, write cₙ, close` from the initial state. -/
def deliveryRun (ops : List DeliveryOp) : DeliveryState :=
  ops.foldl deliveryStep deliveryInit

/-- The canonical trace of `Delivery`: all writes, then `Close`. -/
def deliveryTrace (chunks : List (List Nat)) : List DeliveryOp :=
  chunks.map .write ++ [.close]

theorem deliveryStep_writes (cs : List (List Nat)) (t : List Nat) :
    List.foldl deliveryStep
        { tmpFile := some t, newFile := none, closed := false }
        (cs.map .write) =
      { tmpFile := some (t ++ cs.flatten), newFile := none,
        closed := false } := by
  induction cs generalizing t with
  | nil => simp
  | cons c cs ih =>
    simp only [List.map_cons, List.foldl_cons, deliveryStep, List.flatten_cons]
    rw [if_neg (by simp)]
    simpa [List.append_assoc] using ih (t ++ c)

/-- Claim C3: a reader polling the destination name at an arbitrary point
of a delivery — i.e. after any prefix of the trace — observes either
nothing or the complete message: before `Close` (any prefix of at most the
number of writes) the destination does not exist, and after `Close` returns
it holds exactly the concatenation of all written chunks.  The publication
is the single atomic rename in `deliveryStep .close`, so no truncated file
is ever visible at the final path. -/
theorem delivery_atomic (chunks : List (List Nat)) (i : Nat) :
    ((deliveryRun ((deliveryTrace chunks).take i)).newFile = none ∨
      (deliveryRun ((deliveryTrace chunks).take i)).newFile =
        some chunks.flatten) ∧
    (i ≤ chunks.length →
      (deliveryRun ((deliveryTrace chunks).take i)).newFile = none) ∧
    (deliveryRun (deliveryTrace chunks)).newFile = some chunks.flatten := by
  have hfull : deliveryRun (deliveryTrace chunks) =
      { tmpFile := none, newFile := some chunks.flatten, closed := true } := by
    unfold deliveryRun deliveryTrace deliveryInit
    rw [List.foldl_append]
    rw [show List.foldl deliveryStep
        { tmpFile := some [], newFile := none, closed := false }
        (chunks.map .write) =
      { tmpFile := some ([] ++ chunks.flatten), newFile := none,
        closed := false } from deliveryStep_writes chunks []]
    simp [deliveryStep]
  have hpre : ∀ j, j ≤ chunks.length →
      deliveryRun ((deliveryTrace chunks).take j) =
        { tmpFile := some ((chunks.take j).flatten), newFile := none,
          closed := false } := by
    intro j hj
    unfold deliveryRun deliveryTrace deliveryInit
    rw [List.take_append_of_le_length (by simpa using hj),
      ← List.map_take]
    simpa using deliveryStep_writes (chunks.take j) []
  refine ⟨?_, fun hi => by rw [hpre i hi], by rw [hfull]⟩
  by_cases hi : i ≤ chunks.length
  · left
    rw [hpre i hi]
  · right
    have htk : (deliveryTrace chunks).take i = deliveryTrace chunks := by
      apply List.take_of_length_le
      unfold deliveryTrace
      simp
      omega
    rw [htk, hfull]

/-- Claim C3 witness: delivering the chunks `[[1], [2]]`, observed after one
write (nothing visible) and after `Close` (the full message `[1, 2]`). -/
theorem delivery_atomic_witness :
    (((deliveryRun ((deliveryTrace [[1], [2]]).take 1)).newFile = none ∨
      (deliveryRun ((deliveryTrace [[1], [2]]).take 1)).newFile =
        some ([[1], [2]] : List (List Nat)).flatten) ∧
    (1 ≤ ([[1], [2]] : List (List Nat)).length →
      (deliveryRun ((deliveryTrace [[1], [2]]).take 1)).newFile = none) ∧
    (deliveryRun (deliveryTrace [[1], [2]])).newFile =
      some ([[1], [2]] : List (List Nat)).flatten) :=
  delivery_atomic [[1], [2]] 1

/-- A directory path as a list of components. -/
abbrev DirPath := List (List Char)

/-- Outcome of `os.Mkdir`. -/
inductive MkdirRes where
  | ok
  | exist
  | noent
  deriving DecidableEq, Repr

/-- `os.Mkdir(name, 0700)`: fails with an exists-error when the directory
is already present (left untouched), creates it when its parent exists (a
top-level path needs no parent in the model), and otherwise fails with a
non-exists error. -/
def mkdirModel (s : List DirPath) (p : DirPath) : List DirPath × MkdirRes :=
  if p ∈ s then (s, .exist)
  else if p.dropLast = [] ∨ p.dropLast ∈ s then (p :: s, .ok)
  else (s, .noent)

/-- The four directories `Dir.Init` creates, in source order (lines
472–477): the root, then `tmp`, `new`, `cur`. -/
def mailboxDirs (d : List Char) : List DirPath :=
  [[d], [d, ['t', 'm', 'p']], [d, ['n', 'e', 'w']], [d, ['c', 'u', 'r']]]

/-- The loop of `Dir.Init` (lines 478–482): `os.Mkdir` each name in order;
an exists-error is ignored, any other error aborts with a failure. -/
def initGo (s : List DirPath) : List DirPath → List DirPath × Bool
  | [] => (s, true)
  | p :: rest =>
    match mkdirModel s p with
    | (s', .noent) => (s', false)
    | (s', .ok) => initGo s' rest
    | (s', .exist) => initGo s' rest

/-- `Dir.Init` (lines 471–484) on a filesystem state `s`: returns the new
state and whether the call succeeded. -/
def initModel (d : List Char) (s : List DirPath) : List DirPath × Bool :=
  initGo s (mailboxDirs d)

theorem mem_mkdirModel {q : DirPath} {s : List DirPath} (p : DirPath)
    (h : q ∈ s) : q ∈ (mkdirModel s p).1 := by
  unfold mkdirModel
  by_cases h1 : p ∈ s
  · rw [if_pos h1]; exact h
  · rw [if_neg h1]
    by_cases h2 : p.dropLast = [] ∨ p.dropLast ∈ s
    · rw [if_pos h2]; exact List.mem_cons_of_mem p h
    · rw [if_neg h2]; exact h

theorem mem_initGo {q : DirPath} :
    ∀ (ps : List DirPath) (s : List DirPath), q ∈ s → q ∈ (initGo s ps).1 := by
  intro ps
  induction ps with
  | nil => intro s h; exact h
  | cons p rest ih =>
    intro s h
    have hm := mem_mkdirModel (s := s) p h
    unfold initGo
    rcases hr : mkdirModel s p with ⟨s', r⟩
    rw [hr] at hm
    cases r with
    | ok => exact ih s' hm
    | exist => exact ih s' hm
    | noent => exact hm

theorem initGo_true_mem :
    ∀ (ps : List DirPath) (s : List DirPath), (initGo s ps).2 = true →
      ∀ p ∈ ps, p ∈ (initGo s ps).1 := by
  intro ps
  induction ps with
  | nil => intro s _ p hp; exact absurd hp (List.not_mem_nil p)
  | cons p rest ih =>
    intro s htrue q hq
    unfold initGo at htrue ⊢
    rcases hr : mkdirModel s p with ⟨s', r⟩
    rw [hr] at htrue
    have hps' : p ∈ s' := by
      unfold mkdirModel at hr
      by_cases h1 : p ∈ s
      · rw [if_pos h1] at hr
        cases hr
        exact h1
      · rw [if_neg h1] at hr
        by_cases h2 : p.dropLast = [] ∨ p.dropLast ∈ s
        · rw [if_pos h2] at hr
          cases hr
          exact List.mem_cons_self p s
        · rw [if_neg h2] at hr
          cases hr
          exact absurd htrue (by simp)
    rcases List.mem_cons.1 hq with rfl | hq'
    · cases r with
      | ok => exact mem_initGo rest s' hps'
      | exist => exact mem_initGo rest s' hps'
      | noent => simp at htrue
    · cases r with
      | ok => exact ih s' htrue q hq'
      | exist => exact ih s' htrue q hq'
      | noent => simp at htrue

theorem initGo_all_mem :
    ∀ (ps : List DirPath) (s : List DirPath), (∀ p ∈ ps, p ∈ s) →
      initGo s ps = (s, true) := by
  intro ps
  induction ps with
  | nil => intro s _; rfl
  | cons p rest ih =>
    intro s hall
    have hp : p ∈ s := hall p (List.mem_cons_self p rest)
    have hmk : mkdirModel s p = (s, .exist) := by
      unfold mkdirModel
      rw [if_pos hp]
    unfold initGo
    rw [hmk]
    exact ih s (fun q hq => hall q (List.mem_cons_of_mem p hq))

/-- Claim C9: `Dir.Init` is idempotent — whenever a first call succeeds,
the root and the three subdirectories `tmp`, `new`, `cur` are all present
afterwards, and a second call finds every directory already existing
(`os.IsExist` errors are ignored, so pre-existing directories are not an
error), changes nothing, and returns no error. -/
theorem init_idempotent (d : List Char) (s : List DirPath)
    (h1 : (initModel d s).2 = true) :
    initModel d (initModel d s).1 = ((initModel d s).1, true) ∧
      [d] ∈ (initModel d s).1 ∧
      [d, ['t', 'm', 'p']] ∈ (initModel d s).1 ∧
      [d, ['n', 'e', 'w']] ∈ (initModel d s).1 ∧
      [d, ['c', 'u', 'r']] ∈ (initModel d s).1 := by
  have hall : ∀ p ∈ mailboxDirs d, p ∈ (initModel d s).1 :=
    initGo_true_mem (mailboxDirs d) s h1
  refine ⟨initGo_all_mem (mailboxDirs d) (initModel d s).1 hall,
    hall [d] (by simp [mailboxDirs]),
    hall [d, ['t', 'm', 'p']] (by simp [mailboxDirs]),
    hall [d, ['n', 'e', 'w']] (by simp [mailboxDirs]),
    hall [d, ['c', 'u', 'r']] (by simp [mailboxDirs])⟩

/-- Claim C9 witness: initializing the mailbox `"m"` on an empty
filesystem. -/
theorem init_idempotent_witness :
    initModel ['m'] (initModel ['m'] []).1 = ((initModel ['m'] []).1, true) ∧
      [['m']] ∈ (initModel ['m'] []).1 ∧
      [['m'], ['t', 'm', 'p']] ∈ (initModel ['m'] []).1 ∧
      [['m'], ['n', 'e', 'w']] ∈ (initModel ['m'] []).1 ∧
      [['m'], ['c', 'u', 'r']] ∈ (initModel ['m'] []).1 :=
  init_idempotent ['m'] [] (by decide)

/-- A mailbox area (subdirectory) as an association list from basename to
file content; renames and file creation are updates on it. -/
abbrev Area := List (List Char × List Nat)

/-- Content of the entry `name`, if it exists. -/
def areaGet (a : Area) (name : List Char) : Option (List Nat) :=
  (a.find? (fun e => e.1 == name)).map (fun e => e.2)

/-- Remove the entry `name` (no-op when absent). -/
def areaErase (a : Area) (name : List Char) : Area :=
  a.filter (fun e => !(e.1 == name))

/-- Create or overwrite the entry `name` with content `c` (`os.Rename`
overwrites an existing destination). -/
def areaSet (a : Area) (name : List Char) (c : List Nat) : Area :=
  (name, c) :: areaErase a name

/-- A mailbox: its staging and working areas (the inbox area plays no role
in copy and move). -/
structure Mailbox where
  tmp : Area
  cur : Area
  deriving DecidableEq, Repr

/-- Failures of `Message.CopyTo`. -/
inductive CopyErr where
  | openErr
  | exclErr
  | fmtPanic
  deriving DecidableEq, Repr

/-- `Message.MoveTo` (lines 177–184): a single `os.Rename` of the message's
file into the target's working area under the same basename
(`filepath.Base(msg.filename)`); on success only the cached filename is
updated — key and flags caches are untouched.  `none` models a rename
failure (source file missing). -/
def moveToModel (src target : Mailbox) (m : Msg) (targetRoot : List Char) :
    Option (Mailbox × Mailbox × Msg) :=
  match areaGet src.cur m.basename with
  | none => none
  | some c =>
    some ({ src with cur := areaErase src.cur m.basename },
          { target with cur := areaSet target.cur m.basename c },
          { m with dir := targetRoot ++ ['/', 'c', 'u', 'r'] })

/-- `Message.CopyTo` (lines 190–211): open the source file, `Create` a
fresh entry in the target with the source's flags (create-exclusive staging
file under the new key, lines 487–510), stream-copy the content, and close
— `tmpMessage.Close` (lines 218–223)
renames the staging file onto the target's working-area basename.  The
source mailbox is never written.  (`Create`'s `formatBasename` sorts the
caller's flag slice in place; message flag slices are already sorted, the
returned message's flags are modelled as `sortFlags m.flags`.) -/
def copyToModel (src target : Mailbox) (m : Msg)
    (newKey targetRoot : List Char) :
    Except CopyErr (Mailbox × Mailbox × Msg) :=
  match areaGet src.cur m.basename with
  | none => .error .openErr
  | some c =>
    match areaGet target.tmp newKey with
    | some _ => .error .exclErr
    | none =>
      match formatBasename newKey m.flags with
      | none => .error .fmtPanic
      | some bn =>
        .ok (src,
             { tmp := areaErase (areaSet target.tmp newKey c) newKey,
               cur := areaSet target.cur bn c },
             { dir := targetRoot ++ ['/', 'c', 'u', 'r'], basename := bn,
               key := newKey, flags := sortFlags m.flags })

theorem areaGet_areaSet_self (a : Area) (name : List Char) (c : List Nat) :
    areaGet (areaSet a name c) name = some c := by
  unfold areaGet areaSet
  rw [List.find?_cons_of_pos _ (by simp)]
  rfl

theorem areaGet_areaErase_self (a : Area) (name : List Char) :
    areaGet (areaErase a name) name = none := by
  unfold areaGet areaErase
  induction a with
  | nil => rfl
  | cons e rest ih =>
    by_cases he : e.1 = name
    · rw [List.filter_cons_of_neg (by simp [he])]
      exact ih
    · rw [List.filter_cons_of_pos (by simp [he]),
        List.find?_cons_of_neg _ (by simp [he])]
      exact ih

theorem canonicalFlags_toFinset (F : List Char) :
    (canonicalFlags F).toFinset = F.toFinset := by
  apply List.toFinset.ext
  intro x
  constructor
  · exact mem_canonicalFlags
  · intro hx
    exact List.mem_dedup.2 ((sortFlags_perm F).mem_iff.2 hx)

/-- Claim C8 (counterexample): the on-disk entry `"k:2,,"` is accepted by
`parseBasename` with the flag set `[',']`, so a message carrying the flag
`','` is constructible from the working area; copying it succeeds, but the
new entry's basename is `"n:2,"` — the `','` flag is absorbed by the
encoder's duplicate check against the `"2,"` marker — and decodes to the
empty flag set, not to the source's flag set `[',']`: the copy does not
carry the same flag set. -/
theorem copyTo_comma_flag_counterexample :
    copyToModel ⟨[], [(['k', separator, '2', ',', ','], [1, 2])]⟩ ⟨[], []⟩
        ⟨['A'], ['k', separator, '2', ',', ','], ['k'], [',']⟩ ['n'] ['B'] =
      .ok (⟨[], [(['k', separator, '2', ',', ','], [1, 2])]⟩,
           ⟨[], [(['n', separator, '2', ','], [1, 2])]⟩,
           ⟨['B', '/', 'c', 'u', 'r'], ['n', separator, '2', ','], ['n'],
             [',']⟩) ∧
      parseBasename ['k', separator, '2', ',', ','] = .ok (['k'], [',']) ∧
      parseBasename ['n', separator, '2', ','] = .ok (['n'], []) ∧
      ([] : List Char).toFinset ≠ ([','] : List Char).toFinset := by
  refine ⟨by decide, rfl, rfl, by decide⟩

/-- Claim C8 (amended): for every message whose flags are ASCII characters
other than `','` and the separator (the excluded inputs make the claim fail:
a `','` flag is absorbed by the encoder, and non-ASCII flag lists can panic
inside `formatBasename`), copying leaves the source mailbox untouched (the
source entry keeps its path and content and stays readable) and creates in
the target a new entry under the fresh key whose content is identical and
whose basename decodes to the same flag set (the canonical form of the
source's flags), with no staging residue; moving removes the entry from the
source's working area and makes it appear in the target's working area
under the identical basename with identical content, with the message's key
and flags caches unchanged. -/
theorem copy_preserves_move_removes (src target target2 : Mailbox) (m : Msg)
    (c : List Nat) (newKey targetRoot : List Char)
    (hsrc : areaGet src.cur m.basename = some c)
    (hkey : newKey ≠ []) (hks : separator ∉ newKey)
    (hF : ∀ f ∈ m.flags, f.toNat < 128 ∧ f ≠ ',' ∧ f ≠ separator)
    (htmp : areaGet target.tmp newKey = none) :
    (∃ tgt' m', copyToModel src target m newKey targetRoot =
        .ok (src, tgt', m') ∧
      m'.key = newKey ∧
      m'.basename =
        newKey ++ separator :: '2' :: ',' :: canonicalFlags m.flags ∧
      areaGet tgt'.cur m'.basename = some c ∧
      parseBasename m'.basename = .ok (newKey, canonicalFlags m.flags) ∧
      (canonicalFlags m.flags).toFinset = m.flags.toFinset ∧
      areaGet tgt'.tmp newKey = none) ∧
    (∃ src' tgt2' m2, moveToModel src target2 m targetRoot =
        some (src', tgt2', m2) ∧
      areaGet src'.cur m.basename = none ∧
      areaGet tgt2'.cur m.basename = some c ∧
      m2.basename = m.basename ∧ m2.key = m.key ∧ m2.flags = m.flags) := by
  constructor
  · refine ⟨{ tmp := areaErase (areaSet target.tmp newKey c) newKey,
              cur := areaSet target.cur
                (newKey ++ separator :: '2' :: ',' :: canonicalFlags m.flags)
                c },
            { dir := targetRoot ++ ['/', 'c', 'u', 'r'],
              basename :=
                newKey ++ separator :: '2' :: ',' :: canonicalFlags m.flags,
              key := newKey, flags := sortFlags m.flags }, ?_, rfl, rfl,
            areaGet_areaSet_self _ _ _,
            parseBasename_canonical hkey hks hF,
            canonicalFlags_toFinset m.flags,
            areaGet_areaErase_self _ _⟩
    unfold copyToModel
    rw [hsrc, htmp, formatBasename_eq_canonical hF]
  · refine ⟨{ src with cur := areaErase src.cur m.basename },
            { target2 with cur := areaSet target2.cur m.basename c },
            { m with dir := targetRoot ++ ['/', 'c', 'u', 'r'] }, ?_,
            areaGet_areaErase_self _ _, areaGet_areaSet_self _ _ _,
            rfl, rfl, rfl⟩
    unfold moveToModel
    rw [hsrc]

/-- Claim C8 witness: a message `"k:2,S"` with content `[1, 2]` in mailbox
`A`, copied to an empty mailbox `B` under the fresh key `"n"` and moved to
an empty mailbox `C`. -/
theorem copy_preserves_move_removes_witness :
    (∃ tgt' m', copyToModel
        ⟨[], [(['k', separator, '2', ',', 'S'], [1, 2])]⟩ ⟨[], []⟩
        ⟨['A'], ['k', separator, '2', ',', 'S'], ['k'], ['S']⟩ ['n'] ['B'] =
        .ok (⟨[], [(['k', separator, '2', ',', 'S'], [1, 2])]⟩, tgt', m') ∧
      m'.key = ['n'] ∧
      m'.basename = ['n'] ++ separator :: '2' :: ',' ::
        canonicalFlags ['S'] ∧
      areaGet tgt'.cur m'.basename = some [1, 2] ∧
      parseBasename m'.basename = .ok (['n'], canonicalFlags ['S']) ∧
      (canonicalFlags ['S']).toFinset = (['S'] : List Char).toFinset ∧
      areaGet tgt'.tmp ['n'] = none) ∧
    (∃ src' tgt2' m2, moveToModel
        ⟨[], [(['k', separator, '2', ',', 'S'], [1, 2])]⟩ ⟨[], []⟩
        ⟨['A'], ['k', separator, '2', ',', 'S'], ['k'], ['S']⟩ ['B'] =
        some (src', tgt2', m2) ∧
      areaGet src'.cur ['k', separator, '2', ',', 'S'] = none ∧
      areaGet tgt2'.cur ['k', separator, '2', ',', 'S'] = some [1, 2] ∧
      m2.basename = ['k', separator, '2', ',', 'S'] ∧ m2.key = ['k'] ∧
      m2.flags = ['S']) :=
  copy_preserves_move_removes
    ⟨[], [(['k', separator, '2', ',', 'S'], [1, 2])]⟩ ⟨[], []⟩ ⟨[], []⟩
    ⟨['A'], ['k', separator, '2', ',', 'S'], ['k'], ['S']⟩ [1, 2] ['n'] ['B']
    (by decide) (by decide) (by decide) (by decide) (by decide)

end Maildir
